import Mathlib

/-!
Verification of the boundary-geometry pipeline of `scripts/fetch_district_geojson.py`:
the point-to-segment distance (`perpendicular_distance`), the recursive
Douglas-Peucker simplifier (`douglas_peucker`), the per-way simplifier
(`simplify_ways`), the member filter of `parse_data`, and the ring stitcher
(`merge_ways_from_ids`).

Modelling conventions.
* Coordinates are exact rationals (`ℚ × ℚ`): the Python floats are idealised to
  exact arithmetic.
* The Python code returns `math.hypot`-based Euclidean distances, which are
  irrational.  Distances are modelled by their squares
  (`perpendicular_distance_sq`).  Every use of a distance in the program is a
  comparison (`d > max_dist` with both sides nonnegative, and
  `max_dist > tolerance`), and `Real.sqrt` is strictly monotone on
  nonnegatives, so each comparison is translated faithfully:
  `d > max_dist ↔ d² > max_dist²`, and for `max_dist = √m`
  `max_dist > tol ↔ tol < 0 ∨ tol² < m`.
* `douglas_peucker(coords, tolerance)` does not terminate on every input: when
  every interior point lies on the chord (all distances 0) and the tolerance is
  negative, the code recurses on `coords[0:] == coords` forever
  (`max_idx` stays 0).  The embedding is fuel-indexed with fuel `coords.length`
  (sufficient whenever the code terminates) and returns `none` exactly on the
  diverging branch.
* Python dicts are modelled as association lists (`List (ℕ × List Point)`) with
  first-match `List.lookup`, loops as structural recursions.
-/

/-- A coordinate pair `(lon, lat)`, exact-rational model of a Python float pair. -/
def Point : Type := ℚ × ℚ

instance : DecidableEq Point := instDecidableEqProd

instance : Inhabited Point := ⟨((0 : ℚ), (0 : ℚ))⟩

/-- Default point used to totalise the partial indexings `coords[0]` /
`coords[-1]` of the source; every use is guarded by a nonemptiness fact. -/
def pt0 : Point := ((0 : ℚ), (0 : ℚ))

/-- Squared Euclidean distance between two points (square of `math.hypot`). -/
def sqDist (p q : Point) : ℚ := (p.1 - q.1) ^ 2 + (p.2 - q.2) ^ 2

/-- The point `a + u * (b - a)` on the line through `a` and `b`
(spec side: "projection onto the infinite line through the two endpoints"). -/
def lerp (a b : Point) (u : ℚ) : Point :=
  (a.1 + u * (b.1 - a.1), a.2 + u * (b.2 - a.2))

/-- Square of `perpendicular_distance(point, line_start, line_end)`
(fetch_district_geojson.py lines 61-73): degenerate branch for
`line_start == line_end`, otherwise the distance to the projection with the
parameter `t` clamped to `[0, 1]`. -/
def perpendicular_distance_sq (point line_start line_end : Point) : ℚ :=
  let dx := line_end.1 - line_start.1
  let dy := line_end.2 - line_start.2
  if dx = 0 ∧ dy = 0 then
    (point.1 - line_start.1) ^ 2 + (point.2 - line_start.2) ^ 2
  else
    let t := ((point.1 - line_start.1) * dx + (point.2 - line_start.2) * dy) /
      (dx * dx + dy * dy)
    let tc := max 0 (min 1 t)
    let proj_x := line_start.1 + tc * dx
    let proj_y := line_start.2 + tc * dy
    (point.1 - proj_x) ^ 2 + (point.2 - proj_y) ^ 2

/-- The interior points `coords[1], ..., coords[len-2]` scanned by the loop
`for i in range(1, len(coords) - 1)` of `douglas_peucker`. -/
def interiorPts (c : List Point) : List Point := (c.drop 1).dropLast

/-- The loop of `douglas_peucker` (lines 81-87) computing `(max_dist, max_idx)`
over the interior points, in squared-distance form: `i` is the index of the
head of `l` in the original list, `m`/`mi` the accumulated maximum and its
index (initially `(0, 0)` as in the source); the update uses the strict
comparison `d > max_dist`. -/
def scanMax (p0 pn : Point) : List Point → ℕ → ℚ → ℕ → ℚ × ℕ
  | [], _, m, mi => (m, mi)
  | x :: xs, i, m, mi =>
    if m < perpendicular_distance_sq x p0 pn then
      scanMax p0 pn xs (i + 1) (perpendicular_distance_sq x p0 pn) i
    else
      scanMax p0 pn xs (i + 1) m mi

/-- `(max_dist², max_idx)` for one call of `douglas_peucker` on `c`. -/
def maxScan (c : List Point) : ℚ × ℕ :=
  scanMax (c.head?.getD pt0) (c.getLast?.getD pt0) (interiorPts c) 1 0 0

/-- Fuel-indexed embedding of `douglas_peucker(coords, tolerance)`
(lines 76-94).  `none` models nontermination: when `max_dist > tolerance`
holds with `max_idx = 0` the source recurses on `coords[0:] == coords`
forever.  The comparison `max_dist > tolerance` on true distances is rendered
as `t < 0 ∨ t * t < max_dist²`.  With fuel `coords.length` the embedding
computes exactly the value the source returns whenever it terminates. -/
def dpF : ℕ → List Point → ℚ → Option (List Point)
  | 0, c, _ => if c.length ≤ 2 then some c else none
  | fuel + 1, c, t =>
    if c.length ≤ 2 then some c
    else
      if t < 0 ∨ t * t < (maxScan c).1 then
        if (maxScan c).2 = 0 then none
        else
          match dpF fuel (c.take ((maxScan c).2 + 1)) t,
              dpF fuel (c.drop (maxScan c).2) t with
          | some l, some r => some (l.dropLast ++ r)
          | _, _ => none
      else some [c.head?.getD pt0, c.getLast?.getD pt0]

/-- `douglas_peucker(coords, tolerance)`: the fuel `coords.length` is always
sufficient (proved by `dpF_fuel_irrel`); `none` means the source diverges. -/
def douglas_peucker (coords : List Point) (tolerance : ℚ) : Option (List Point) :=
  dpF coords.length coords tolerance

/-- Body of the loop of `simplify_ways` (lines 164-173) for a single way:
pass-through for `len(coords) <= 2`, otherwise simplify and fall back to
`[coords[0], coords[-1]]` if fewer than 2 points remain. -/
def simplifyWay (coords : List Point) (tolerance : ℚ) : Option (List Point) :=
  if coords.length ≤ 2 then some coords
  else
    (douglas_peucker coords tolerance).map fun interior =>
      if interior.length < 2 then [coords.head?.getD pt0, coords.getLast?.getD pt0]
      else interior

/-- `simplify_ways(ways, tolerance)` (lines 158-174): simplify every way once,
keyed by its id.  `none` propagates the simplifier's divergence. -/
def simplify_ways (ways : List (ℕ × List Point)) (tolerance : ℚ) :
    Option (List (ℕ × List Point)) :=
  ways.mapM fun kv => (simplifyWay kv.2 tolerance).map fun v => (kv.1, v)

/-- A relation member as read by `parse_data` (lines 143-147): `member["type"]`,
`member.get("role")` (`none` models an absent `"role"` key), `member["ref"]`. -/
structure Member where
  mtype : String
  role : Option String
  ref : ℕ

/-- The member filter of `parse_data` (lines 141-147): collect `member["ref"]`
for way members whose `member.get("role")` is `"outer"` or `""` and whose way
id resolves in `ways`, preserving order. -/
def outer_members (members : List Member) (ways : List (ℕ × List Point)) : List ℕ :=
  members.filterMap fun m =>
    if m.mtype = "way" ∧ (m.role = some ("outer") ∨ m.role = some ("")) then
      if (ways.lookup m.ref).isSome then some m.ref else none
    else none

/-- One scan of the `for i, w in enumerate(remaining)` loop of
`merge_ways_from_ids` (lines 196-216): the first `w` whose endpoint matches an
endpoint of `current` is spliced in (four cases, in source order) and removed;
`none` when no candidate matches. -/
def findMatch (current : List Point) : List (List Point) →
    Option (List Point × List (List Point))
  | [] => none
  | w :: ws =>
    if current.getLast? = w.head? then some (current ++ w.drop 1, ws)
    else if current.getLast? = w.getLast? then some (current ++ w.reverse.drop 1, ws)
    else if current.head? = w.getLast? then some (w.dropLast ++ current, ws)
    else if current.head? = w.head? then some (w.reverse.dropLast ++ current, ws)
    else
      match findMatch current ws with
      | none => none
      | some (c, ws2) => some (c, w :: ws2)

/-- The `while changed` loop (lines 193-216): repeat `findMatch` until no
candidate matches.  Each successful match removes one element of `rem`, so
fuel `rem.length` is always sufficient (proved in the termination theorem). -/
def innerLoop : ℕ → List Point → List (List Point) → List Point × List (List Point)
  | 0, current, rem => (current, rem)
  | fuel + 1, current, rem =>
    match findMatch current rem with
    | none => (current, rem)
    | some (c, rem2) => innerLoop fuel c rem2

/-- The ring-closing step (lines 218-220): append the first point when the
chain has at least 3 points and its ends differ. -/
def closeRing (cur : List Point) : List Point :=
  if 3 ≤ cur.length ∧ cur.head? ≠ cur.getLast? then cur ++ [cur.head?.getD pt0]
  else cur

/-- The `while remaining` loop (lines 191-222): pop the first unconsumed
sequence, extend it by `innerLoop`, force-close it when it has at least 3
points and open ends, and keep it when the closed ring has at least 4 points. -/
def outerLoop : ℕ → List (List Point) → List (List Point)
  | 0, _ => []
  | _ + 1, [] => []
  | fuel + 1, c :: rest =>
    (if 4 ≤ (closeRing (innerLoop rest.length c rest).1).length
      then [closeRing (innerLoop rest.length c rest).1] else []) ++
      outerLoop fuel (innerLoop rest.length c rest).2

/-- Lines 179-183: resolve the way ids through the lookup (`ways.get(wid, [])`)
and keep the nonempty coordinate lists, preserving order. -/
def segmentsOf (way_ids : List ℕ) (ways : List (ℕ × List Point)) : List (List Point) :=
  way_ids.filterMap fun wid =>
    match ways.lookup wid with
    | some coords => if coords = [] then none else some coords
    | none => none

/-- `merge_ways_from_ids(way_ids, ways)` (lines 177-224). -/
def merge_ways_from_ids (way_ids : List ℕ) (ways : List (ℕ × List Point)) :
    List (List Point) :=
  outerLoop (segmentsOf way_ids ways).length (segmentsOf way_ids ways)

/-! ## Properties of the distance primitive -/

theorem sqDist_nonneg (p q : Point) : 0 ≤ sqDist p q := by
  have h1 : (0:ℚ) ≤ (p.1 - q.1) ^ 2 := sq_nonneg _
  have h2 : (0:ℚ) ≤ (p.2 - q.2) ^ 2 := sq_nonneg _
  simpa [sqDist] using add_nonneg h1 h2

theorem perpendicular_distance_sq_nonneg (p a b : Point) :
    0 ≤ perpendicular_distance_sq p a b := by
  unfold perpendicular_distance_sq
  by_cases h : b.1 - a.1 = 0 ∧ b.2 - a.2 = 0 <;>
    simp only [h, if_true, if_false] <;>
    exact add_nonneg (sq_nonneg _) (sq_nonneg _)

/-- In the degenerate case the source returns the plain distance to
`line_start`. -/
theorem perpendicular_distance_sq_degenerate (p a b : Point) (h : a = b) :
    perpendicular_distance_sq p a b = sqDist p a := by
  subst h
  simp [perpendicular_distance_sq, sqDist]


/-- Algebraic core of the clamped-projection minimality: on `[0, 1]` the
quadratic `v ↦ (c1 - v*dx)² + (c2 - v*dy)²` attains its minimum at the clamped
parameter `u = max 0 (min 1 T)`, `T` the unclamped critical point. -/
theorem clampMinAux (c1 c2 dx dy v T u : ℚ) (hD : 0 < dx * dx + dy * dy)
    (hT : T = (c1 * dx + c2 * dy) / (dx * dx + dy * dy))
    (hu : u = max 0 (min 1 T)) (hv0 : 0 ≤ v) (hv1 : v ≤ 1) :
    (c1 - u * dx) ^ 2 + (c2 - u * dy) ^ 2 ≤ (c1 - v * dx) ^ 2 + (c2 - v * dy) ^ 2 := by
  have hDne : dx * dx + dy * dy ≠ 0 := ne_of_gt hD
  have hN : c1 * dx + c2 * dy = T * (dx * dx + dy * dy) := by
    rw [hT]
    field_simp
  rcases le_or_lt T 0 with hT0 | hT0
  · have hu0 : u = 0 := by
      rw [hu, min_eq_right (hT0.trans zero_le_one), max_eq_left hT0]
    rw [hu0]
    have hNneg : c1 * dx + c2 * dy ≤ 0 := by
      rw [hN]
      exact mul_nonpos_of_nonpos_of_nonneg hT0 hD.le
    nlinarith [mul_nonneg hv0 (mul_nonneg hv0 hD.le),
      mul_nonneg hv0 (neg_nonneg.mpr hNneg)]
  · rcases le_or_lt T 1 with hT1 | hT1
    · have huT : u = T := by
        rw [hu, min_eq_right hT1, max_eq_right hT0.le]
      rw [huT]
      nlinarith [mul_nonneg hD.le (sq_nonneg (v - T)), hN]
    · have hu1 : u = 1 := by
        rw [hu, min_eq_left hT1.le, max_eq_right zero_le_one]
      rw [hu1]
      nlinarith [mul_nonneg hD.le
        (mul_nonneg (by linarith : (0:ℚ) ≤ 1 - v) (by linarith : (0:ℚ) ≤ 2 * T - (v + 1))), hN]

/-- The value returned by `perpendicular_distance` is the distance from the
point to `lerp a b u` for the clamped parameter `u ∈ [0, 1]`, and that point
is nearest to `p` among all points of the segment. -/
theorem perpendicular_distance_sq_min (p a b : Point) (h : ¬(a = b)) :
    ∃ u, 0 ≤ u ∧ u ≤ 1 ∧
      perpendicular_distance_sq p a b = sqDist p (lerp a b u) ∧
      ∀ v, 0 ≤ v → v ≤ 1 →
        perpendicular_distance_sq p a b ≤ sqDist p (lerp a b v) := by
  have hab : ¬(b.1 - a.1 = 0 ∧ b.2 - a.2 = 0) := by
    intro hc
    exact h (Prod.ext (by linarith [hc.1]) (by linarith [hc.2]))
  have hD : 0 < (b.1 - a.1) * (b.1 - a.1) + (b.2 - a.2) * (b.2 - a.2) := by
    rcases not_and_or.mp hab with h1 | h1
    · nlinarith [mul_self_pos.mpr h1, mul_self_nonneg (b.2 - a.2)]
    · nlinarith [mul_self_pos.mpr h1, mul_self_nonneg (b.1 - a.1)]
  refine ⟨max 0 (min 1 (((p.1 - a.1) * (b.1 - a.1) + (p.2 - a.2) * (b.2 - a.2)) /
      ((b.1 - a.1) * (b.1 - a.1) + (b.2 - a.2) * (b.2 - a.2)))),
    le_max_left _ _, max_le zero_le_one (min_le_left _ _), ?_, ?_⟩
  · simp only [perpendicular_distance_sq, sqDist, lerp]
    rw [if_neg hab]
  · intro v hv0 hv1
    have key := clampMinAux (p.1 - a.1) (p.2 - a.2) (b.1 - a.1) (b.2 - a.2) v _ _
      hD rfl rfl hv0 hv1
    have e1 : perpendicular_distance_sq p a b =
        (p.1 - a.1 - max 0 (min 1 (((p.1 - a.1) * (b.1 - a.1) + (p.2 - a.2) * (b.2 - a.2)) /
          ((b.1 - a.1) * (b.1 - a.1) + (b.2 - a.2) * (b.2 - a.2)))) * (b.1 - a.1)) ^ 2 +
        (p.2 - a.2 - max 0 (min 1 (((p.1 - a.1) * (b.1 - a.1) + (p.2 - a.2) * (b.2 - a.2)) /
          ((b.1 - a.1) * (b.1 - a.1) + (b.2 - a.2) * (b.2 - a.2)))) * (b.2 - a.2)) ^ 2 := by
      simp only [perpendicular_distance_sq]
      rw [if_neg hab]
      ring
    have e2 : sqDist p (lerp a b v) =
        (p.1 - a.1 - v * (b.1 - a.1)) ^ 2 + (p.2 - a.2 - v * (b.2 - a.2)) ^ 2 := by
      simp only [sqDist, lerp]
      ring
    rw [e1, e2]
    exact key

/-! ## Characterisation of the max-distance scan -/

/-- Full characterisation of the `(max_dist, max_idx)` loop: the result bounds
every scanned distance and the accumulator; either no update happened (result
equals the accumulator), or the result is the value at the first index, offset
from `i`, attaining the final maximum, with all earlier scanned distances
strictly below it. -/
theorem scanMax_spec (p0 pn : Point) (l : List Point) :
    ∀ (i : ℕ) (m : ℚ) (mi : ℕ),
      m ≤ (scanMax p0 pn l i m mi).1 ∧
      (∀ k (hk : k < l.length),
        perpendicular_distance_sq (l.get ⟨k, hk⟩) p0 pn ≤ (scanMax p0 pn l i m mi).1) ∧
      (((scanMax p0 pn l i m mi).1 = m ∧ (scanMax p0 pn l i m mi).2 = mi) ∨
        ∃ k, ∃ hk : k < l.length,
          (scanMax p0 pn l i m mi).2 = i + k ∧
          perpendicular_distance_sq (l.get ⟨k, hk⟩) p0 pn = (scanMax p0 pn l i m mi).1 ∧
          m < (scanMax p0 pn l i m mi).1 ∧
          ∀ j (hj : j < l.length), j < k →
            perpendicular_distance_sq (l.get ⟨j, hj⟩) p0 pn < (scanMax p0 pn l i m mi).1) := by
  induction l with
  | nil =>
    intro i m mi
    refine ⟨le_refl m, ?_, Or.inl ⟨rfl, rfl⟩⟩
    intro k hk
    simp at hk
  | cons x xs ih =>
    intro i m mi
    by_cases h : m < perpendicular_distance_sq x p0 pn
    · have hs : scanMax p0 pn (x :: xs) i m mi =
          scanMax p0 pn xs (i + 1) (perpendicular_distance_sq x p0 pn) i := by
        simp [scanMax, h]
      rw [hs]
      obtain ⟨ih1, ih2, ih3⟩ := ih (i + 1) (perpendicular_distance_sq x p0 pn) i
      refine ⟨le_trans (le_of_lt h) ih1, ?_, ?_⟩
      · intro k hk
        match k with
        | 0 => simpa using ih1
        | k + 1 =>
          have hk2 : k < xs.length := by simpa using hk
          simpa using ih2 k hk2
      · rcases ih3 with ⟨e1, e2⟩ | ⟨k, hk, hik, hval, hlt, hfirst⟩
        · right
          refine ⟨0, by simp, by simpa using e2, by simpa using e1.symm, ?_, ?_⟩
          · rw [e1]
            exact h
          · intro j hj hj0
            omega
        · right
          refine ⟨k + 1, by simpa using hk, by rw [hik]; omega, by simpa using hval, ?_, ?_⟩
          · exact lt_trans h hlt
          · intro j hj hjk
            match j with
            | 0 => simpa using hlt
            | j + 1 =>
              have hj2 : j < xs.length := by simpa using hj
              simpa using hfirst j hj2 (by omega)
    · have hs : scanMax p0 pn (x :: xs) i m mi = scanMax p0 pn xs (i + 1) m mi := by
        simp [scanMax, h]
      rw [hs]
      obtain ⟨ih1, ih2, ih3⟩ := ih (i + 1) m mi
      refine ⟨ih1, ?_, ?_⟩
      · intro k hk
        match k with
        | 0 =>
          simp only [List.get]
          exact le_trans (not_lt.mp h) ih1
        | k + 1 =>
          have hk2 : k < xs.length := by simpa using hk
          simpa using ih2 k hk2
      · rcases ih3 with ⟨e1, e2⟩ | ⟨k, hk, hik, hval, hlt, hfirst⟩
        · left
          exact ⟨e1, e2⟩
        · right
          refine ⟨k + 1, by simpa using hk, by rw [hik]; omega, by simpa using hval, hlt, ?_⟩
          intro j hj hjk
          match j with
          | 0 =>
            simp only [List.get]
            exact lt_of_le_of_lt (not_lt.mp h) hlt
          | j + 1 =>
            have hj2 : j < xs.length := by simpa using hj
            simpa using hfirst j hj2 (by omega)

/-- When the scanned list contains a first maximum `M > 0` at position `q`,
the scan starting from the initial accumulator `(0, 0)` returns exactly
`(M, i + q)`. -/
theorem scanMax_determined (p0 pn : Point) (l : List Point) (q : ℕ) (M : ℚ) (i : ℕ)
    (hq : q < l.length) (hM : 0 < M)
    (hat : perpendicular_distance_sq (l.get ⟨q, hq⟩) p0 pn = M)
    (hbefore : ∀ j (hj : j < l.length), j < q →
      perpendicular_distance_sq (l.get ⟨j, hj⟩) p0 pn < M)
    (hall : ∀ j (hj : j < l.length), perpendicular_distance_sq (l.get ⟨j, hj⟩) p0 pn ≤ M) :
    scanMax p0 pn l i 0 0 = (M, i + q) := by
  obtain ⟨-, hall2, hdisj⟩ := scanMax_spec p0 pn l i 0 0
  rcases hdisj with ⟨h1, _⟩ | ⟨k, hk, hik, hval, _, hfirst⟩
  · exfalso
    have := hall2 q hq
    rw [h1, hat] at this
    exact absurd (lt_of_lt_of_le hM this) (lt_irrefl 0)
  · have hres1 : (scanMax p0 pn l i 0 0).1 = M := by
      have hle : (scanMax p0 pn l i 0 0).1 ≤ M := by
        rw [← hval]
        exact hall k hk
      have hge : M ≤ (scanMax p0 pn l i 0 0).1 := by
        rw [← hat]
        exact hall2 q hq
      exact le_antisymm hle hge
    have hkq : k = q := by
      rcases lt_trichotomy k q with hlt2 | heq | hgt
      · exfalso
        have := hbefore k hk hlt2
        rw [hval, hres1] at this
        exact lt_irrefl M this
      · exact heq
      · exfalso
        have := hfirst q hq hgt
        rw [hat, hres1] at this
        exact lt_irrefl M this
    have hres2 : (scanMax p0 pn l i 0 0).2 = i + q := by
      rw [hik, hkq]
    exact Prod.ext hres1 hres2

/-! ## List helper lemmas -/

theorem interiorPts_length (c : List Point) : (interiorPts c).length = c.length - 2 := by
  simp only [interiorPts, List.length_dropLast, List.length_drop]
  omega

theorem interiorPts_get (c : List Point) (k : ℕ) (hk : k < (interiorPts c).length)
    (hk2 : k + 1 < c.length) :
    (interiorPts c).get ⟨k, hk⟩ = c.get ⟨k + 1, hk2⟩ := by
  simp only [interiorPts, List.get_eq_getElem, List.getElem_dropLast, List.getElem_drop]
  congr 1
  omega

theorem head?_take_succ (c : List Point) (n : ℕ) : (c.take (n + 1)).head? = c.head? := by
  cases c <;> simp

theorem head?_some_of_ne_nil (c : List Point) (h : c ≠ []) :
    c.head? = some (c.head?.getD pt0) := by
  cases c with
  | nil => exact absurd rfl h
  | cons a l => rfl

theorem getLast?_some_of_ne_nil (c : List Point) (h : c ≠ []) :
    c.getLast? = some (c.getLast?.getD pt0) := by
  cases hc : c.getLast? with
  | none => exact absurd (List.getLast?_eq_none_iff.mp hc) h
  | some a => rfl

theorem getLast?_drop_of_lt (c : List Point) (n : ℕ) (h : n < c.length) :
    (c.drop n).getLast? = c.getLast? := by
  rw [List.getLast?_eq_getElem?, List.getLast?_eq_getElem?, List.getElem?_drop]
  congr 1
  simp only [List.length_drop]
  omega

theorem getLast?_take_succ (c : List Point) (n : ℕ) (h : n < c.length) :
    (c.take (n + 1)).getLast? = c.get? n := by
  rw [List.getLast?_eq_getElem?]
  have hlen : (c.take (n + 1)).length = n + 1 := by
    simp only [List.length_take]
    omega
  rw [hlen]
  simp only [Nat.add_sub_cancel]
  rw [List.getElem?_take_of_lt (Nat.lt_succ_self n), List.get?_eq_getElem?]

/-! ## Basic properties of the fuel-indexed simplifier -/

theorem dpF_small (fuel : ℕ) (c : List Point) (t : ℚ) (h : c.length ≤ 2) :
    dpF fuel c t = some c := by
  cases fuel <;> simp [dpF, h]

theorem dpF_succ_collapse (fuel : ℕ) (c : List Point) (t : ℚ) (hc : ¬c.length ≤ 2)
    (hcond : ¬(t < 0 ∨ t * t < (maxScan c).1)) :
    dpF (fuel + 1) c t = some [c.head?.getD pt0, c.getLast?.getD pt0] := by
  simp [dpF, hc, hcond]

theorem dpF_succ_diverge (fuel : ℕ) (c : List Point) (t : ℚ) (hc : ¬c.length ≤ 2)
    (hcond : t < 0 ∨ t * t < (maxScan c).1) (h0 : (maxScan c).2 = 0) :
    dpF (fuel + 1) c t = none := by
  simp [dpF, hc, hcond, h0]

theorem dpF_succ_split (fuel : ℕ) (c : List Point) (t : ℚ) (hc : ¬c.length ≤ 2)
    (hcond : t < 0 ∨ t * t < (maxScan c).1) (h0 : ¬(maxScan c).2 = 0) :
    dpF (fuel + 1) c t =
      match dpF fuel (c.take ((maxScan c).2 + 1)) t, dpF fuel (c.drop (maxScan c).2) t with
      | some l, some r => some (l.dropLast ++ r)
      | _, _ => none := by
  simp [dpF, hc, hcond, h0]

/-- When `max_idx` is nonzero it indexes an interior point: `1 ≤ max_idx ≤ len - 2`. -/
theorem maxScan_idx_le (c : List Point) (h0 : (maxScan c).2 ≠ 0) :
    1 ≤ (maxScan c).2 ∧ (maxScan c).2 ≤ c.length - 2 := by
  obtain ⟨-, -, hdisj⟩ :=
    scanMax_spec (c.head?.getD pt0) (c.getLast?.getD pt0) (interiorPts c) 1 0 0
  rcases hdisj with ⟨-, h2⟩ | ⟨k, hk, hik, -, -, -⟩
  · exact absurd h2 h0
  · have hI := interiorPts_length c
    have : (maxScan c).2 = 1 + k := hik
    omega

/-- When `max_idx` stays `0` the maximum also stays `0` (no update fired). -/
theorem maxScan_zero (c : List Point) (h0 : (maxScan c).2 = 0) : (maxScan c).1 = 0 := by
  obtain ⟨-, -, hdisj⟩ :=
    scanMax_spec (c.head?.getD pt0) (c.getLast?.getD pt0) (interiorPts c) 1 0 0
  rcases hdisj with ⟨h1, -⟩ | ⟨k, hk, hik, -, -, -⟩
  · exact h1
  · have : (maxScan c).2 = 1 + k := hik
    omega

/-- The simplifier's value does not depend on the fuel once the fuel covers
the list length: the recursion always terminates within `length` levels. -/
theorem dpF_fuel_irrel : ∀ (fuel1 fuel2 : ℕ) (c : List Point) (t : ℚ),
    c.length ≤ fuel1 → c.length ≤ fuel2 → dpF fuel1 c t = dpF fuel2 c t := by
  intro fuel1
  induction fuel1 using Nat.strong_induction_on with
  | _ fuel1 ih =>
    intro fuel2 c t h1 h2
    by_cases hc : c.length ≤ 2
    · rw [dpF_small _ _ _ hc, dpF_small _ _ _ hc]
    · have h3 : 3 ≤ c.length := by omega
      obtain ⟨f1, rfl⟩ : ∃ f, fuel1 = f + 1 := ⟨fuel1 - 1, by omega⟩
      obtain ⟨f2, rfl⟩ : ∃ f, fuel2 = f + 1 := ⟨fuel2 - 1, by omega⟩
      by_cases hcond : t < 0 ∨ t * t < (maxScan c).1
      · by_cases h0 : (maxScan c).2 = 0
        · rw [dpF_succ_diverge _ _ _ hc hcond h0, dpF_succ_diverge _ _ _ hc hcond h0]
        · rw [dpF_succ_split _ _ _ hc hcond h0, dpF_succ_split _ _ _ hc hcond h0]
          obtain ⟨hmi1, hmi2⟩ := maxScan_idx_le c h0
          have ht1 : (c.take ((maxScan c).2 + 1)).length ≤ f1 := by
            simp only [List.length_take]
            omega
          have ht2 : (c.take ((maxScan c).2 + 1)).length ≤ f2 := by
            simp only [List.length_take]
            omega
          have hd1 : (c.drop (maxScan c).2).length ≤ f1 := by
            simp only [List.length_drop]
            omega
          have hd2 : (c.drop (maxScan c).2).length ≤ f2 := by
            simp only [List.length_drop]
            omega
          rw [ih f1 (Nat.lt_succ_self f1) f2 (c.take ((maxScan c).2 + 1)) t ht1 ht2,
            ih f1 (Nat.lt_succ_self f1) f2 (c.drop (maxScan c).2) t hd1 hd2]
      · rw [dpF_succ_collapse _ _ _ hc hcond, dpF_succ_collapse _ _ _ hc hcond]

theorem douglas_peucker_eq_dpF (fuel : ℕ) (c : List Point) (t : ℚ)
    (h : c.length ≤ fuel) : dpF fuel c t = douglas_peucker c t :=
  dpF_fuel_irrel fuel c.length c t h (le_refl _)

/-- Structural soundness of one simplifier call: the head and last entries are
preserved, short inputs pass through unchanged, and long inputs keep at least
two points. -/
theorem dpF_sound : ∀ (fuel : ℕ) (c : List Point) (t : ℚ) (r : List Point),
    dpF fuel c t = some r →
    r.head? = c.head? ∧ r.getLast? = c.getLast? ∧ (c.length ≤ 2 → r = c) ∧
      (3 ≤ c.length → 2 ≤ r.length) := by
  intro fuel
  induction fuel with
  | zero =>
    intro c t r hr
    by_cases hc : c.length ≤ 2
    · rw [dpF_small _ _ _ hc] at hr
      obtain rfl : c = r := by simpa using hr
      exact ⟨rfl, rfl, fun _ => rfl, fun h3 => absurd h3 (by omega)⟩
    · simp [dpF, hc] at hr
  | succ fuel ih =>
    intro c t r hr
    by_cases hc : c.length ≤ 2
    · rw [dpF_small _ _ _ hc] at hr
      obtain rfl : c = r := by simpa using hr
      exact ⟨rfl, rfl, fun _ => rfl, fun h3 => absurd h3 (by omega)⟩
    · have h3 : 3 ≤ c.length := by omega
      have hcne : c ≠ [] := by
        intro hnil
        rw [hnil] at h3
        simp at h3
      by_cases hcond : t < 0 ∨ t * t < (maxScan c).1
      · by_cases h0 : (maxScan c).2 = 0
        · rw [dpF_succ_diverge _ _ _ hc hcond h0] at hr
          simp at hr
        · rw [dpF_succ_split _ _ _ hc hcond h0] at hr
          obtain ⟨hmi1, hmi2⟩ := maxScan_idx_le c h0
          rcases hl : dpF fuel (c.take ((maxScan c).2 + 1)) t with _ | l
          · rw [hl] at hr
            simp at hr
          rcases hrr : dpF fuel (c.drop (maxScan c).2) t with _ | rr
          · rw [hl, hrr] at hr
            simp at hr
          rw [hl, hrr] at hr
          have hres : l.dropLast ++ rr = r := by simpa using hr
          obtain ⟨hl1, hl2, hl3, hl4⟩ := ih _ _ _ hl
          obtain ⟨hr1, hr2, hr3, hr4⟩ := ih _ _ _ hrr
          have hlen_take : (c.take ((maxScan c).2 + 1)).length = (maxScan c).2 + 1 := by
            simp only [List.length_take]
            omega
          have hlen_drop : (c.drop (maxScan c).2).length = c.length - (maxScan c).2 := by
            simp only [List.length_drop]
          have hll : 2 ≤ l.length := by
            by_cases htk : (c.take ((maxScan c).2 + 1)).length ≤ 2
            · rw [hl3 htk, hlen_take]
              omega
            · exact hl4 (by omega)
          have hrl : 2 ≤ rr.length := by
            by_cases hdk : (c.drop (maxScan c).2).length ≤ 2
            · rw [hr3 hdk, hlen_drop]
              omega
            · exact hr4 (by omega)
          have hldne : l.dropLast ≠ [] := by
            have : l.dropLast.length = l.length - 1 := List.length_dropLast l
            intro hnil
            rw [hnil] at this
            simp at this
            omega
          have hrrne : rr ≠ [] := by
            intro hnil
            rw [hnil] at hrl
            simp at hrl
          subst hres
          refine ⟨?_, ?_, fun hsm => absurd hsm hc, fun _ => ?_⟩
          · have hdl : l.dropLast.head? = l.head? := by
              rw [List.head?_dropLast]
              have : 1 < l.length := by omega
              simp [this]
            rw [List.head?_append, hdl, hl1, head?_take_succ]
            rw [head?_some_of_ne_nil c hcne]
            simp
          · rw [List.getLast?_append]
            rw [hr2, getLast?_drop_of_lt c _ (by omega)]
            rw [getLast?_some_of_ne_nil c hcne]
            simp
          · rw [List.length_append, List.length_dropLast]
            omega
      · rw [dpF_succ_collapse _ _ _ hc hcond] at hr
        have hres : [c.head?.getD pt0, c.getLast?.getD pt0] = r := by simpa using hr
        subst hres
        refine ⟨?_, ?_, fun hsm => absurd hsm hc, fun _ => by simp⟩
        · simp only [List.head?_cons]
          exact (head?_some_of_ne_nil c hcne).symm
        · have : [c.head?.getD pt0, c.getLast?.getD pt0].getLast? =
              some (c.getLast?.getD pt0) := by simp
          rw [this]
          exact (getLast?_some_of_ne_nil c hcne).symm

/-- For a nonnegative tolerance the simplifier always terminates: the
diverging branch requires `max_dist > tolerance` with `max_dist = 0`. -/
theorem dpF_total : ∀ (fuel : ℕ) (c : List Point) (t : ℚ), 0 ≤ t →
    c.length ≤ fuel → ∃ r, dpF fuel c t = some r := by
  intro fuel
  induction fuel with
  | zero =>
    intro c t ht hlen
    exact ⟨c, dpF_small 0 c t (by omega)⟩
  | succ fuel ih =>
    intro c t ht hlen
    by_cases hc : c.length ≤ 2
    · exact ⟨c, dpF_small _ _ _ hc⟩
    · by_cases hcond : t < 0 ∨ t * t < (maxScan c).1
      · have h0 : (maxScan c).2 ≠ 0 := by
          intro h0
          have hm0 := maxScan_zero c h0
          rw [hm0] at hcond
          rcases hcond with hlt | hlt
          · linarith
          · nlinarith
        obtain ⟨hmi1, hmi2⟩ := maxScan_idx_le c h0
        obtain ⟨l, hl⟩ := ih (c.take ((maxScan c).2 + 1)) t ht
          (by simp only [List.length_take]; omega)
        obtain ⟨r, hrr⟩ := ih (c.drop (maxScan c).2) t ht
          (by simp only [List.length_drop]; omega)
        refine ⟨l.dropLast ++ r, ?_⟩
        rw [dpF_succ_split _ _ _ hc hcond h0, hl, hrr]
      · exact ⟨_, dpF_succ_collapse _ _ _ hc hcond⟩

/-- The pair head / last of a list of length at least 2 is a sublist of it. -/
theorem head_last_sublist (c : List Point) (h : 2 ≤ c.length) :
    List.Sublist [c.head?.getD pt0, c.getLast?.getD pt0] c := by
  match c, h with
  | a :: b :: rest, _ =>
    have hrne : b :: rest ≠ [] := by simp
    obtain ⟨y, hy⟩ : ∃ y, (b :: rest).getLast? = some y := by
      cases hg : (b :: rest).getLast? with
      | none => exact absurd (List.getLast?_eq_none_iff.mp hg) hrne
      | some z => exact ⟨z, rfl⟩
    have hserr : (a :: b :: rest).getLast? = some y := by
      rw [show a :: b :: rest = [a] ++ (b :: rest) from rfl, List.getLast?_append, hy]
      rfl
    have hdecomp : (b :: rest).dropLast ++ [y] = b :: rest :=
      List.dropLast_append_getLast? y (Option.mem_def.mpr hy)
    simp only [hserr, List.head?_cons, Option.getD_some]
    refine List.Sublist.cons₂ a ?_
    rw [← hdecomp]
    exact List.sublist_append_right _ [y]

/-- Every successful simplification result is a sublist of its input. -/
theorem dpF_sublist : ∀ (fuel : ℕ) (c : List Point) (t : ℚ) (r : List Point),
    dpF fuel c t = some r → r.Sublist c := by
  intro fuel
  induction fuel with
  | zero =>
    intro c t r hr
    by_cases hc : c.length ≤ 2
    · rw [dpF_small _ _ _ hc] at hr
      obtain rfl : c = r := by simpa using hr
      exact List.Sublist.refl _
    · simp [dpF, hc] at hr
  | succ fuel ih =>
    intro c t r hr
    by_cases hc : c.length ≤ 2
    · rw [dpF_small _ _ _ hc] at hr
      obtain rfl : c = r := by simpa using hr
      exact List.Sublist.refl _
    · have h3 : 3 ≤ c.length := by omega
      by_cases hcond : t < 0 ∨ t * t < (maxScan c).1
      · by_cases h0 : (maxScan c).2 = 0
        · rw [dpF_succ_diverge _ _ _ hc hcond h0] at hr
          simp at hr
        · rw [dpF_succ_split _ _ _ hc hcond h0] at hr
          obtain ⟨hmi1, hmi2⟩ := maxScan_idx_le c h0
          have hmi : (maxScan c).2 < c.length := by omega
          rcases hl : dpF fuel (c.take ((maxScan c).2 + 1)) t with _ | l
          · rw [hl] at hr
            simp at hr
          rcases hrr : dpF fuel (c.drop (maxScan c).2) t with _ | rr
          · rw [hl, hrr] at hr
            simp at hr
          rw [hl, hrr] at hr
          have hres : l.dropLast ++ rr = r := by simpa using hr
          have hsubl : List.Sublist l (c.take ((maxScan c).2 + 1)) := ih _ _ _ hl
          have hsubr : List.Sublist rr (c.drop (maxScan c).2) := ih _ _ _ hrr
          obtain ⟨hl1, hl2, -, -⟩ := dpF_sound fuel _ t l hl
          have hlast : l.getLast? = some (c.get ⟨(maxScan c).2, hmi⟩) := by
            rw [hl2, getLast?_take_succ c _ hmi, List.get?_eq_getElem?,
              List.getElem?_eq_getElem hmi]
            rfl
          have hld : l.dropLast ++ [c.get ⟨(maxScan c).2, hmi⟩] = l :=
            List.dropLast_append_getLast? _ (Option.mem_def.mpr hlast)
          have htlast : (c.take ((maxScan c).2 + 1)).getLast? =
              some (c.get ⟨(maxScan c).2, hmi⟩) := by
            rw [getLast?_take_succ c _ hmi, List.get?_eq_getElem?,
              List.getElem?_eq_getElem hmi]
            rfl
          have htd : (c.take ((maxScan c).2 + 1)).dropLast ++
              [c.get ⟨(maxScan c).2, hmi⟩] = c.take ((maxScan c).2 + 1) :=
            List.dropLast_append_getLast? _ (Option.mem_def.mpr htlast)
          have hgg : (c.get ⟨(maxScan c).2, hmi⟩ : Point) = getElem c ((maxScan c).2) hmi := rfl
          have h1 : List.Sublist l.dropLast (c.take ((maxScan c).2 + 1)).dropLast := by
            rw [← hld, ← htd] at hsubl
            exact (List.append_sublist_append_right _).mp hsubl
          have hcdecomp : (c.take ((maxScan c).2 + 1)).dropLast ++
              c.drop (maxScan c).2 = c := by
            rw [List.drop_eq_getElem_cons hmi, ← List.singleton_append,
              ← List.append_assoc, ← hgg, htd, List.take_append_drop]
          rw [← hres, ← hcdecomp]
          exact List.Sublist.append h1 hsubr
      · rw [dpF_succ_collapse _ _ _ hc hcond] at hr
        have hres : [c.head?.getD pt0, c.getLast?.getD pt0] = r := by simpa using hr
        rw [← hres]
        exact head_last_sublist c (by omega)

/-! ## Interior decompositions -/

theorem head?_drop_of_lt (c : List Point) (n : ℕ) (h : n < c.length) :
    (c.drop n).head? = some (c.get ⟨n, h⟩) := by
  rw [List.drop_eq_getElem_cons h]
  rfl

theorem interiorPts_take (c : List Point) (mi : ℕ) (h1 : 1 ≤ mi) (h2 : mi ≤ c.length - 2) :
    interiorPts (c.take (mi + 1)) = (interiorPts c).take (mi - 1) := by
  apply List.ext_getElem
  · simp only [interiorPts, List.length_dropLast, List.length_drop, List.length_take]
    omega
  · intro n hn1 hn2
    simp only [interiorPts, List.getElem_dropLast, List.getElem_drop, List.getElem_take]

theorem interiorPts_drop (c : List Point) (mi : ℕ) (h2 : mi ≤ c.length - 2) :
    interiorPts (c.drop mi) = (interiorPts c).drop mi := by
  apply List.ext_getElem
  · simp only [interiorPts, List.length_dropLast, List.length_drop]
    omega
  · intro n hn1 hn2
    simp only [interiorPts, List.getElem_dropLast, List.getElem_drop]
    have he : mi + (1 + n) = 1 + (mi + n) := by omega
    simp [he]

theorem interior_split (l r : List Point) (hl : 2 ≤ l.length) (hr : 2 ≤ r.length) :
    interiorPts (l.dropLast ++ r) = interiorPts l ++ (r.head?.getD pt0) :: interiorPts r := by
  match l, hl with
  | a :: b :: lt, _ =>
    match r, hr with
    | x :: y :: rt, _ =>
      simp [interiorPts, List.dropLast_append_of_ne_nil]

theorem dpF_len2 (fuel : ℕ) (c : List Point) (t : ℚ) (r : List Point)
    (hr : dpF fuel c t = some r) (h2 : 2 ≤ c.length) : 2 ≤ r.length := by
  obtain ⟨-, -, h3, h4⟩ := dpF_sound fuel c t r hr
  by_cases hc : c.length ≤ 2
  · rw [h3 hc]
    omega
  · exact h4 (by omega)

/-- The interior of a successful simplification is a sublist of the interior of
the input (with the original endpoints and the split point kept in place). -/
theorem dpF_interior : ∀ (fuel : ℕ) (c : List Point) (t : ℚ) (r : List Point),
    dpF fuel c t = some r → List.Sublist (interiorPts r) (interiorPts c) := by
  intro fuel
  induction fuel with
  | zero =>
    intro c t r hr
    by_cases hc : c.length ≤ 2
    · rw [dpF_small _ _ _ hc] at hr
      obtain rfl : c = r := by simpa using hr
      exact List.Sublist.refl _
    · simp [dpF, hc] at hr
  | succ fuel ih =>
    intro c t r hr
    by_cases hc : c.length ≤ 2
    · rw [dpF_small _ _ _ hc] at hr
      obtain rfl : c = r := by simpa using hr
      exact List.Sublist.refl _
    · have h3 : 3 ≤ c.length := by omega
      by_cases hcond : t < 0 ∨ t * t < (maxScan c).1
      · by_cases h0 : (maxScan c).2 = 0
        · rw [dpF_succ_diverge _ _ _ hc hcond h0] at hr
          simp at hr
        · rw [dpF_succ_split _ _ _ hc hcond h0] at hr
          obtain ⟨hmi1, hmi2⟩ := maxScan_idx_le c h0
          have hmi : (maxScan c).2 < c.length := by omega
          rcases hl : dpF fuel (c.take ((maxScan c).2 + 1)) t with _ | l
          · rw [hl] at hr
            simp at hr
          rcases hrr : dpF fuel (c.drop (maxScan c).2) t with _ | rr
          · rw [hl, hrr] at hr
            simp at hr
          rw [hl, hrr] at hr
          have hres : l.dropLast ++ rr = r := by simpa using hr
          have hlen_take : (c.take ((maxScan c).2 + 1)).length = (maxScan c).2 + 1 := by
            simp only [List.length_take]
            omega
          have hll : 2 ≤ l.length := dpF_len2 fuel _ t l hl (by omega)
          have hrl : 2 ≤ rr.length := dpF_len2 fuel _ t rr hrr
            (by simp only [List.length_drop]; omega)
          obtain ⟨hrh, -, -, -⟩ := dpF_sound fuel _ t rr hrr
          have hIl : List.Sublist (interiorPts l) ((interiorPts c).take ((maxScan c).2 - 1)) := by
            rw [← interiorPts_take c _ hmi1 hmi2]
            exact ih _ _ _ hl
          have hIr : List.Sublist (interiorPts rr) ((interiorPts c).drop (maxScan c).2) := by
            rw [← interiorPts_drop c _ hmi2]
            exact ih _ _ _ hrr
          have hI1 : (maxScan c).2 - 1 < (interiorPts c).length := by
            rw [interiorPts_length]
            omega
          have he1 : (maxScan c).2 - 1 + 1 = (maxScan c).2 := by omega
          have hjunc : rr.head?.getD pt0 = (interiorPts c).get ⟨(maxScan c).2 - 1, hI1⟩ := by
            rw [hrh, head?_drop_of_lt c _ hmi]
            simp only [Option.getD_some]
            rw [interiorPts_get c _ hI1 (by omega : (maxScan c).2 - 1 + 1 < c.length)]
            simp only [he1]
          have hIdecomp : (interiorPts c).take ((maxScan c).2 - 1) ++
              (interiorPts c).get ⟨(maxScan c).2 - 1, hI1⟩ ::
                (interiorPts c).drop (maxScan c).2 = interiorPts c := by
            have hd : (interiorPts c).drop ((maxScan c).2 - 1) =
                getElem (interiorPts c) ((maxScan c).2 - 1) hI1 ::
                  (interiorPts c).drop ((maxScan c).2 - 1 + 1) :=
              List.drop_eq_getElem_cons hI1
            rw [he1] at hd
            show (interiorPts c).take ((maxScan c).2 - 1) ++
              (getElem (interiorPts c) ((maxScan c).2 - 1) hI1 ::
                (interiorPts c).drop (maxScan c).2) = interiorPts c
            rw [← hd, List.take_append_drop]
          obtain ⟨j, hj⟩ : ∃ j : Point,
              (interiorPts c).get ⟨(maxScan c).2 - 1, hI1⟩ = j := ⟨_, rfl⟩
          rw [hj] at hjunc hIdecomp
          rw [← hres, interior_split l rr hll hrl, hjunc, ← hIdecomp]
          exact List.Sublist.append hIl (List.Sublist.cons₂ _ hIr)
      · rw [dpF_succ_collapse _ _ _ hc hcond] at hr
        have hres : [c.head?.getD pt0, c.getLast?.getD pt0] = r := by simpa using hr
        rw [← hres]
        simp [interiorPts]

/-! ## Idempotence of the simplifier -/

theorem mem_take_getElem (L : List Point) (n : ℕ) (x : Point) (hx : x ∈ L.take n) :
    ∃ k, ∃ hk : k < L.length, k < n ∧ L.get ⟨k, hk⟩ = x := by
  obtain ⟨k, hk, hxe⟩ := List.mem_iff_getElem.mp hx
  have hk2 : k < L.length := by
    have h := hk
    simp only [List.length_take] at h
    omega
  have hkn : k < n := by
    have h := hk
    simp only [List.length_take] at h
    omega
  refine ⟨k, hk2, hkn, ?_⟩
  rw [← hxe]
  simp [List.get_eq_getElem, List.getElem_take]

theorem mem_drop_getElem (L : List Point) (n : ℕ) (x : Point) (hx : x ∈ L.drop n) :
    ∃ k, ∃ hk : k < L.length, n ≤ k ∧ L.get ⟨k, hk⟩ = x := by
  obtain ⟨j, hj, hxe⟩ := List.mem_iff_getElem.mp hx
  have hj2 : n + j < L.length := by
    have h := hj
    simp only [List.length_drop] at h
    omega
  refine ⟨n + j, hj2, by omega, ?_⟩
  rw [← hxe]
  simp [List.get_eq_getElem, List.getElem_drop]

/-- `scanMax_spec` restated through `maxScan`. -/
theorem maxScan_spec (c : List Point) :
    (∀ k (hk : k < (interiorPts c).length),
      perpendicular_distance_sq ((interiorPts c).get ⟨k, hk⟩) (c.head?.getD pt0)
        (c.getLast?.getD pt0) ≤ (maxScan c).1) ∧
    (((maxScan c).1 = 0 ∧ (maxScan c).2 = 0) ∨
      ∃ k, ∃ hk : k < (interiorPts c).length,
        (maxScan c).2 = 1 + k ∧
        perpendicular_distance_sq ((interiorPts c).get ⟨k, hk⟩) (c.head?.getD pt0)
          (c.getLast?.getD pt0) = (maxScan c).1 ∧
        0 < (maxScan c).1 ∧
        ∀ j (hj : j < (interiorPts c).length), j < k →
          perpendicular_distance_sq ((interiorPts c).get ⟨j, hj⟩) (c.head?.getD pt0)
            (c.getLast?.getD pt0) < (maxScan c).1) :=
  (scanMax_spec (c.head?.getD pt0) (c.getLast?.getD pt0) (interiorPts c) 1 0 0).2

/-- A successful simplification output is a fixed point of the simplifier at
the same tolerance: re-running `douglas_peucker` on it returns it unchanged. -/
theorem douglas_peucker_fix : ∀ (n : ℕ) (c : List Point), c.length ≤ n →
    ∀ (t : ℚ) (r : List Point),
    douglas_peucker c t = some r → douglas_peucker r t = some r := by
  intro n
  induction n using Nat.strong_induction_on with
  | _ n ih =>
    intro c hcn t r hr
    by_cases hc : c.length ≤ 2
    · rw [douglas_peucker, dpF_small _ _ _ hc] at hr
      obtain rfl : c = r := by simpa using hr
      rw [douglas_peucker, dpF_small _ _ _ hc]
    · have h3 : 3 ≤ c.length := by omega
      obtain ⟨m, hm⟩ : ∃ m, c.length = m + 1 := ⟨c.length - 1, by omega⟩
      rw [douglas_peucker, hm] at hr
      by_cases hcond : t < 0 ∨ t * t < (maxScan c).1
      · by_cases h0 : (maxScan c).2 = 0
        · rw [dpF_succ_diverge _ _ _ hc hcond h0] at hr
          simp at hr
        · rw [dpF_succ_split _ _ _ hc hcond h0] at hr
          obtain ⟨hmi1, hmi2⟩ := maxScan_idx_le c h0
          have hmi : (maxScan c).2 < c.length := by omega
          rcases hl : dpF m (c.take ((maxScan c).2 + 1)) t with _ | l
          · rw [hl] at hr
            simp at hr
          rcases hrr : dpF m (c.drop (maxScan c).2) t with _ | rr
          · rw [hl, hrr] at hr
            simp at hr
          rw [hl, hrr] at hr
          have hres : l.dropLast ++ rr = r := by simpa using hr
          have htake_len : (c.take ((maxScan c).2 + 1)).length = (maxScan c).2 + 1 := by
            simp only [List.length_take]
            omega
          have hdrop_len : (c.drop (maxScan c).2).length = c.length - (maxScan c).2 := by
            simp only [List.length_drop]
          have hll : 2 ≤ l.length := dpF_len2 m _ t l hl (by omega)
          have hrl : 2 ≤ rr.length := dpF_len2 m _ t rr hrr (by omega)
          have hdp_l : douglas_peucker (c.take ((maxScan c).2 + 1)) t = some l := by
            rw [← douglas_peucker_eq_dpF m _ t (by omega)]
            exact hl
          have hdp_r : douglas_peucker (c.drop (maxScan c).2) t = some rr := by
            rw [← douglas_peucker_eq_dpF m _ t (by omega)]
            exact hrr
          have hfix_l : douglas_peucker l t = some l :=
            ih m (by omega) (c.take ((maxScan c).2 + 1)) (by omega) t l hdp_l
          have hfix_r : douglas_peucker rr t = some rr :=
            ih m (by omega) (c.drop (maxScan c).2) (by omega) t rr hdp_r
          obtain ⟨hlh, hllast, -, -⟩ := dpF_sound m _ t l hl
          obtain ⟨hrh, hrlast, -, -⟩ := dpF_sound m _ t rr hrr
          have hrlen : r.length = l.length - 1 + rr.length := by
            rw [← hres]
            simp [List.length_append, List.length_dropLast]
          have hrgt : ¬r.length ≤ 2 := by omega
          have horig : dpF (m + 1) c t = some r := by
            rw [dpF_succ_split _ _ _ hc hcond h0, hl, hrr]
            simp [hres]
          obtain ⟨hrH, hrL, -, -⟩ := dpF_sound (m + 1) c t r horig
          have hIl : List.Sublist (interiorPts l)
              ((interiorPts c).take ((maxScan c).2 - 1)) := by
            rw [← interiorPts_take c _ hmi1 hmi2]
            exact dpF_interior m _ t l hl
          have hIr : List.Sublist (interiorPts rr)
              ((interiorPts c).drop (maxScan c).2) := by
            rw [← interiorPts_drop c _ hmi2]
            exact dpF_interior m _ t rr hrr
          have hsplit : interiorPts r =
              interiorPts l ++ (rr.head?.getD pt0) :: interiorPts rr := by
            rw [← hres]
            exact interior_split l rr hll hrl
          have hjn : rr.head?.getD pt0 = c.get ⟨(maxScan c).2, hmi⟩ := by
            rw [hrh, head?_drop_of_lt c _ hmi]
            simp
          obtain ⟨hallc, hdisj⟩ := maxScan_spec c
          rcases hdisj with ⟨-, h20⟩ | ⟨k, hk, hik, hval, hpos, hfirst⟩
          · exact absurd h20 h0
          have hkmi : k = (maxScan c).2 - 1 := by omega
          have hb : k + 1 < c.length := by
            rw [interiorPts_length] at hk
            omega
          have hvc : perpendicular_distance_sq (c.get ⟨(maxScan c).2, hmi⟩)
              (c.head?.getD pt0) (c.getLast?.getD pt0) = (maxScan c).1 := by
            rw [interiorPts_get c k hk hb] at hval
            have hkk : k + 1 = (maxScan c).2 := by omega
            simp only [hkk] at hval
            exact hval
          -- Any element of the re-scanned interior list is bounded by the maximum.
          have hmemIle : ∀ x ∈ interiorPts l,
              perpendicular_distance_sq x (c.head?.getD pt0) (c.getLast?.getD pt0) <
                (maxScan c).1 := by
            intro x hx
            have hx2 : x ∈ (interiorPts c).take ((maxScan c).2 - 1) := hIl.subset hx
            obtain ⟨k2, hk2, hk2lt, hk2eq⟩ := mem_take_getElem _ _ _ hx2
            rw [← hk2eq]
            exact hfirst k2 hk2 (by omega)
          have hmemIre : ∀ x ∈ interiorPts rr,
              perpendicular_distance_sq x (c.head?.getD pt0) (c.getLast?.getD pt0) ≤
                (maxScan c).1 := by
            intro x hx
            have hx2 : x ∈ (interiorPts c).drop (maxScan c).2 := hIr.subset hx
            obtain ⟨k2, hk2, -, hk2eq⟩ := mem_drop_getElem _ _ _ hx2
            rw [← hk2eq]
            exact hallc k2 hk2
          have hdet : scanMax (c.head?.getD pt0) (c.getLast?.getD pt0)
              (interiorPts l ++ (rr.head?.getD pt0) :: interiorPts rr) 1 0 0 =
              ((maxScan c).1, 1 + (interiorPts l).length) := by
            apply scanMax_determined _ _ _ (interiorPts l).length (maxScan c).1 1
              (by simp) hpos
            · -- value at the junction position
              have hgq : (interiorPts l ++ (rr.head?.getD pt0) :: interiorPts rr).get
                  ⟨(interiorPts l).length, by simp⟩ = rr.head?.getD pt0 := by
                simp [List.get_eq_getElem, List.getElem_append_right (le_refl
                  (interiorPts l).length)]
              rw [hgq, hjn]
              exact hvc
            · -- strictly smaller before the junction
              intro j hj hjq
              have hjl : j < (interiorPts l).length := hjq
              have hgj : (interiorPts l ++ (rr.head?.getD pt0) :: interiorPts rr).get
                  ⟨j, hj⟩ = (interiorPts l).get ⟨j, hjl⟩ := by
                simp [List.get_eq_getElem, List.getElem_append_left hjl]
              rw [hgj]
              exact hmemIle _ (List.get_mem _ _ _)
            · -- bounded everywhere
              intro j hj
              have hmem := List.get_mem (interiorPts l ++ (rr.head?.getD pt0) ::
                interiorPts rr) j hj
              rcases List.mem_append.mp hmem with hin | hin
              · exact le_of_lt (hmemIle _ hin)
              · rcases List.mem_cons.mp hin with heq | hin2
                · rw [heq, hjn]
                  exact le_of_eq hvc
                · exact hmemIre _ hin2
          have hmsr : maxScan r = ((maxScan c).1, 1 + (interiorPts l).length) := by
            have h1 : maxScan r = scanMax (r.head?.getD pt0) (r.getLast?.getD pt0)
                (interiorPts r) 1 0 0 := rfl
            rw [h1, hrH, hrL, hsplit, hdet]
          have hIlen : (interiorPts l).length = l.length - 2 := interiorPts_length l
          -- unfold the re-run
          obtain ⟨mr, hmr⟩ : ∃ mr, r.length = mr + 1 := ⟨r.length - 1, by omega⟩
          have hcondr : t < 0 ∨ t * t < (maxScan r).1 := by
            rw [hmsr]
            exact hcond
          have h0r : ¬(maxScan r).2 = 0 := by
            rw [hmsr]
            simp
          rw [douglas_peucker, hmr, dpF_succ_split mr r t hrgt hcondr h0r]
          have hldl : l.dropLast.length = l.length - 1 := List.length_dropLast l
          have hlne : l ≠ [] := by
            intro hnil
            rw [hnil] at hll
            simp at hll
          have hrrne : rr ≠ [] := by
            intro hnil
            rw [hnil] at hrl
            simp at hrl
          have hjn2 : l.getLast? = some (rr.head?.getD pt0) := by
            rw [hllast, getLast?_take_succ c _ hmi, List.get?_eq_getElem?,
              List.getElem?_eq_getElem hmi, hjn]
            rfl
          have htake_r : r.take ((maxScan r).2 + 1) = l := by
            rw [hmsr]
            have he2 : 1 + (interiorPts l).length + 1 = l.dropLast.length + 1 := by
              omega
            rw [he2, ← hres, List.take_append 1]
            match rr, hrrne with
            | x :: rt, _ =>
              have hx : (x :: rt).head?.getD pt0 = x := rfl
              rw [hx] at hjn2
              simp only [List.take_succ_cons, List.take_zero]
              exact List.dropLast_append_getLast? x (Option.mem_def.mpr hjn2)
          have hdrop_r : r.drop (maxScan r).2 = rr := by
            rw [hmsr]
            have he2 : 1 + (interiorPts l).length = l.dropLast.length := by omega
            rw [he2, ← hres, List.drop_left]
          rw [htake_r, hdrop_r]
          rw [douglas_peucker_eq_dpF mr l t (by omega),
            douglas_peucker_eq_dpF mr rr t (by omega)]
          rw [hfix_l, hfix_r]
          simp [hres]
      · rw [dpF_succ_collapse _ _ _ hc hcond] at hr
        have hres : [c.head?.getD pt0, c.getLast?.getD pt0] = r := by simpa using hr
        rw [← hres, douglas_peucker, dpF_small _ _ _ (by simp)]

/-! ## Properties of the ring stitcher -/

/-- Each successful endpoint match removes exactly one sequence from the
unconsumed pool. -/
theorem findMatch_length : ∀ (current : List Point) (rem : List (List Point))
    (c2 : List Point) (rem2 : List (List Point)),
    findMatch current rem = some (c2, rem2) → rem2.length + 1 = rem.length := by
  intro current rem
  induction rem with
  | nil =>
    intro c2 rem2 h
    simp [findMatch] at h
  | cons w ws ih =>
    intro c2 rem2 h
    simp only [findMatch] at h
    split_ifs at h with h1 h2 h3 h4
    · obtain ⟨-, h6⟩ : c2 = current ++ w.drop 1 ∧ ws = rem2 := by
        constructor <;> [exact (Prod.mk.injEq _ _ _ _ ▸ (Option.some.injEq _ _ ▸ h)).1.symm;
          exact (Prod.mk.injEq _ _ _ _ ▸ (Option.some.injEq _ _ ▸ h)).2]
      rw [← h6]
      simp
    · obtain ⟨-, h6⟩ : c2 = current ++ w.reverse.drop 1 ∧ ws = rem2 := by
        constructor <;> [exact (Prod.mk.injEq _ _ _ _ ▸ (Option.some.injEq _ _ ▸ h)).1.symm;
          exact (Prod.mk.injEq _ _ _ _ ▸ (Option.some.injEq _ _ ▸ h)).2]
      rw [← h6]
      simp
    · obtain ⟨-, h6⟩ : c2 = w.dropLast ++ current ∧ ws = rem2 := by
        constructor <;> [exact (Prod.mk.injEq _ _ _ _ ▸ (Option.some.injEq _ _ ▸ h)).1.symm;
          exact (Prod.mk.injEq _ _ _ _ ▸ (Option.some.injEq _ _ ▸ h)).2]
      rw [← h6]
      simp
    · obtain ⟨-, h6⟩ : c2 = w.reverse.dropLast ++ current ∧ ws = rem2 := by
        constructor <;> [exact (Prod.mk.injEq _ _ _ _ ▸ (Option.some.injEq _ _ ▸ h)).1.symm;
          exact (Prod.mk.injEq _ _ _ _ ▸ (Option.some.injEq _ _ ▸ h)).2]
      rw [← h6]
      simp
    · rcases hfm : findMatch current ws with _ | p
      · rw [hfm] at h
        simp at h
      · rw [hfm] at h
        obtain ⟨hc, hr⟩ : p.1 = c2 ∧ w :: p.2 = rem2 := by
          constructor <;> [exact (Prod.mk.injEq _ _ _ _ ▸ (Option.some.injEq _ _ ▸ h)).1;
            exact (Prod.mk.injEq _ _ _ _ ▸ (Option.some.injEq _ _ ▸ h)).2]
        have := ih p.1 p.2 (by rw [hfm])
        rw [← hr]
        simp only [List.length_cons]
        omega

/-- The matching loop never grows the unconsumed pool. -/
theorem innerLoop_rem_le : ∀ (fuel : ℕ) (current : List Point)
    (rem : List (List Point)), ((innerLoop fuel current rem).2).length ≤ rem.length := by
  intro fuel
  induction fuel with
  | zero =>
    intro current rem
    simp [innerLoop]
  | succ fuel ih =>
    intro current rem
    rcases hfm : findMatch current rem with _ | p
    · simp [innerLoop, hfm]
    · simp only [innerLoop, hfm]
      have h1 := ih p.1 p.2
      have h2 := findMatch_length current rem p.1 p.2 (by rw [hfm])
      omega

/-- Fuel `rem.length` suffices for the matching loop: with at least that much
fuel the loop reaches a no-match state and the result is fuel-independent. -/
theorem innerLoop_fuel_irrel : ∀ (fuel : ℕ) (current : List Point)
    (rem : List (List Point)), rem.length ≤ fuel →
    innerLoop fuel current rem = innerLoop rem.length current rem := by
  intro fuel
  induction fuel with
  | zero =>
    intro current rem h
    have h0 : rem.length = 0 := by omega
    rw [h0]
  | succ fuel ih =>
    intro current rem h
    rcases hfm : findMatch current rem with _ | p
    · cases hrl : rem.length with
      | zero => simp only [innerLoop, hfm]
      | succ k => simp only [innerLoop, hfm]
    · have hlen := findMatch_length current rem p.1 p.2 (by rw [hfm])
      have hrl : rem.length = p.2.length + 1 := by omega
      rw [hrl]
      simp only [innerLoop, hfm]
      exact ih p.1 p.2 (by omega)

theorem outerLoop_nil : ∀ fuel : ℕ, outerLoop fuel [] = [] := by
  intro fuel
  cases fuel <;> simp [outerLoop]

/-- Fuel `pool.length` suffices for the outer stitching loop: every iteration
consumes at least the popped head, so the loop empties the pool and the result
is fuel-independent. -/
theorem outerLoop_fuel_irrel : ∀ (fuel1 fuel2 : ℕ) (pool : List (List Point)),
    pool.length ≤ fuel1 → pool.length ≤ fuel2 →
    outerLoop fuel1 pool = outerLoop fuel2 pool := by
  intro fuel1
  induction fuel1 using Nat.strong_induction_on with
  | _ fuel1 ih =>
    intro fuel2 pool h1 h2
    cases pool with
    | nil => rw [outerLoop_nil, outerLoop_nil]
    | cons c rest =>
      obtain ⟨f1, rfl⟩ : ∃ f, fuel1 = f + 1 := ⟨fuel1 - 1, by simp at h1; omega⟩
      obtain ⟨f2, rfl⟩ : ∃ f, fuel2 = f + 1 := ⟨fuel2 - 1, by simp at h2; omega⟩
      simp only [outerLoop]
      congr 1
      have hst := innerLoop_rem_le rest.length c rest
      have hlen : (c :: rest).length = rest.length + 1 := by simp
      exact ih f1 (by omega) f2 ((innerLoop rest.length c rest).2)
        (by omega) (by omega)

/-- An accepted ring is closed: either the closing step just appended the
first point, or the ends already coincided. -/
theorem closeRing_closed (cur : List Point) (h4 : 4 ≤ (closeRing cur).length) :
    (closeRing cur).head? = (closeRing cur).getLast? := by
  unfold closeRing at h4 ⊢
  by_cases hcl : 3 ≤ cur.length ∧ cur.head? ≠ cur.getLast?
  · rw [if_pos hcl] at h4 ⊢
    have hne : cur ≠ [] := by
      intro h
      rw [h] at hcl
      simp at hcl
    rw [List.head?_append, List.getLast?_concat, head?_some_of_ne_nil cur hne]
    simp
  · rw [if_neg hcl] at h4 ⊢
    push_neg at hcl
    exact hcl (by omega)

/-- Every ring emitted by the outer loop is closed and has at least 4 points. -/
theorem outerLoop_mem : ∀ (fuel : ℕ) (pool : List (List Point)) (r : List Point),
    r ∈ outerLoop fuel pool → 4 ≤ r.length ∧ r.head? = r.getLast? := by
  intro fuel
  induction fuel with
  | zero =>
    intro pool r h
    simp [outerLoop] at h
  | succ fuel ih =>
    intro pool r h
    cases pool with
    | nil => simp [outerLoop] at h
    | cons c rest =>
      simp only [outerLoop] at h
      rcases List.mem_append.mp h with hin | hin
      · by_cases h4 : 4 ≤ (closeRing (innerLoop rest.length c rest).1).length
        · rw [if_pos h4] at hin
          have hr : r = closeRing (innerLoop rest.length c rest).1 := by
            simpa using hin
          rw [hr]
          exact ⟨h4, closeRing_closed _ h4⟩
        · rw [if_neg h4] at hin
          simp at hin
      · exact ih _ _ hin

/-! ## Properties of the per-way simplifier -/

theorem simplifyWay_small (coords : List Point) (t : ℚ) (h : coords.length ≤ 2) :
    simplifyWay coords t = some coords := by
  simp [simplifyWay, h]

theorem simplifyWay_total (coords : List Point) (t : ℚ) (ht : 0 ≤ t) :
    ∃ v, simplifyWay coords t = some v := by
  by_cases h : coords.length ≤ 2
  · exact ⟨coords, simplifyWay_small coords t h⟩
  · obtain ⟨r, hr⟩ := dpF_total coords.length coords t ht (le_refl _)
    have hdp : douglas_peucker coords t = some r := hr
    refine ⟨if r.length < 2 then [coords.head?.getD pt0, coords.getLast?.getD pt0]
      else r, ?_⟩
    rw [simplifyWay, if_neg h, hdp]
    rfl

theorem simplifyWay_len2 (coords : List Point) (t : ℚ) (v : List Point)
    (h : simplifyWay coords t = some v) (h2 : 2 ≤ coords.length) : 2 ≤ v.length := by
  by_cases hc : coords.length ≤ 2
  · rw [simplifyWay_small coords t hc] at h
    obtain rfl : coords = v := by simpa using h
    omega
  · rw [simplifyWay, if_neg hc] at h
    rcases hdp : douglas_peucker coords t with _ | interior
    · rw [hdp] at h
      simp at h
    · rw [hdp] at h
      have hv : (if interior.length < 2 then
          [coords.head?.getD pt0, coords.getLast?.getD pt0] else interior) = v := by
        simpa using h
      rw [← hv]
      by_cases hi : interior.length < 2
      · rw [if_pos hi]
        simp
      · rw [if_neg hi]
        omega

/-- Master description of `simplify_ways` for nonnegative tolerance: it
returns, and pairs every entry with an entry with the same key whose value is
the once-computed simplification of the raw value. -/
theorem simplify_ways_spec (ways : List (ℕ × List Point)) (t : ℚ) (ht : 0 ≤ t) :
    ∃ m, simplify_ways ways t = some m ∧
      List.Forall₂ (fun kv kv2 => kv2.1 = kv.1 ∧ simplifyWay kv.2 t = some kv2.2)
        ways m := by
  induction ways with
  | nil => exact ⟨[], rfl, List.Forall₂.nil⟩
  | cons kv rest ih =>
    obtain ⟨m, hm, hf⟩ := ih
    obtain ⟨v, hv⟩ := simplifyWay_total kv.2 t ht
    have hm2 : rest.mapM
        (fun kv => (simplifyWay kv.2 t).map fun v => (kv.1, v)) = some m := hm
    refine ⟨(kv.1, v) :: m, ?_, List.Forall₂.cons ⟨rfl, hv⟩ hf⟩
    show (kv :: rest).mapM (fun kv => (simplifyWay kv.2 t).map fun v => (kv.1, v)) =
      some ((kv.1, v) :: m)
    rw [List.mapM_cons, hv, hm2]
    rfl

theorem forall2_fst_eq {P : (ℕ × List Point) → (ℕ × List Point) → Prop}
    (hP : ∀ a b, P a b → b.1 = a.1) :
    ∀ (ways m : List (ℕ × List Point)), List.Forall₂ P ways m →
    m.map Prod.fst = ways.map Prod.fst := by
  intro ways m hf
  induction hf with
  | nil => rfl
  | cons hab hrest ih =>
    simp only [List.map_cons, ih, List.cons.injEq]
    exact ⟨hP _ _ hab, trivial⟩

theorem forall2_lookup (t : ℚ) :
    ∀ (ways m : List (ℕ × List Point)),
    List.Forall₂ (fun kv kv2 => kv2.1 = kv.1 ∧ simplifyWay kv.2 t = some kv2.2) ways m →
    ∀ (S : ℕ) (cs : List Point), ways.lookup S = some cs →
      m.lookup S = simplifyWay cs t := by
  intro ways m hf
  induction hf with
  | nil =>
    intro S cs h
    simp [List.lookup] at h
  | @cons kv kv2 rest m2 hab hrest ih =>
    intro S cs h
    obtain ⟨hfst, hsw⟩ := hab
    obtain ⟨k1, v1⟩ := kv
    obtain ⟨k2, v2⟩ := kv2
    simp only at hfst hsw
    by_cases hS : S = k1
    · subst hS
      rw [List.lookup_cons_self] at h
      have hcs : v1 = cs := by simpa using h
      rw [hfst, List.lookup_cons_self, ← hcs]
      exact hsw.symm
    · have hbeq : (S == k1) = false := beq_false_of_ne hS
      rw [List.lookup_cons] at h
      rw [hfst, List.lookup_cons]
      simp only [hbeq] at h ⊢
      exact ih S cs h

/-! ## Characterisation of the member filter -/

/-- The member loop of `parse_data` collects exactly the refs of way members
whose role key is present and equal to `"outer"` or `""` and whose id
resolves; a member with an absent role key (`role = none`) is excluded. -/
theorem outer_members_filter (members : List Member) (ways : List (ℕ × List Point)) :
    outer_members members ways = (members.filter fun m =>
      decide (m.mtype = "way" ∧ (m.role = some ("outer") ∨ m.role = some ("")) ∧
        (ways.lookup m.ref).isSome)).map Member.ref := by
  induction members with
  | nil => rfl
  | cons m rest ih =>
    simp only [outer_members] at ih ⊢
    by_cases hA : m.mtype = "way" <;>
      by_cases hB1 : m.role = some ("outer") <;>
        by_cases hB2 : m.role = some ("") <;>
          by_cases hC : (ways.lookup m.ref).isSome <;>
            simp [List.filterMap_cons, List.filter_cons, hA, hB1, hB2, hC, ih]

/-! ## Claim theorems -/

/-- C1 (counterexample): the claim fails as stated over *every* tolerance: at
tolerance `-1` on the length-3 all-equal input, `max_dist = 0 > -1` with
`max_idx = 0`, so `douglas_peucker` recurses on `coords[0:] == coords`
forever and returns nothing at all. -/
theorem C1_counterexample :
    2 ≤ ([((0:ℚ),(0:ℚ)), ((0:ℚ),(0:ℚ)), ((0:ℚ),(0:ℚ))] : List Point).length ∧
    douglas_peucker [((0:ℚ),(0:ℚ)), ((0:ℚ),(0:ℚ)), ((0:ℚ),(0:ℚ))] (-1) = none := by
  constructor
  · simp
  · norm_num [douglas_peucker, dpF, maxScan, scanMax, interiorPts,
      perpendicular_distance_sq, pt0]

/-- C1 (amended): for every nonnegative tolerance and every input of length at
least 2, `douglas_peucker` returns a sequence whose first and last entries
equal the input's first and last entries — only interior points are removed. -/
theorem C1_endpoint_preservation (c : List Point) (t : ℚ) (ht : 0 ≤ t)
    (h2 : 2 ≤ c.length) :
    ∃ r, douglas_peucker c t = some r ∧ r.head? = c.head? ∧
      r.getLast? = c.getLast? := by
  obtain ⟨r, hr⟩ := dpF_total c.length c t ht (le_refl _)
  have hdp : douglas_peucker c t = some r := hr
  obtain ⟨hh, hl, -, -⟩ := dpF_sound c.length c t r hr
  exact ⟨r, hdp, hh, hl⟩

theorem C1_witness :
    (0:ℚ) ≤ 0 ∧
    2 ≤ ([((0:ℚ),(0:ℚ)), ((1:ℚ),(1:ℚ)), ((2:ℚ),(0:ℚ))] : List Point).length ∧
    ∃ r, douglas_peucker [((0:ℚ),(0:ℚ)), ((1:ℚ),(1:ℚ)), ((2:ℚ),(0:ℚ))] 0 = some r ∧
      r.head? = ([((0:ℚ),(0:ℚ)), ((1:ℚ),(1:ℚ)), ((2:ℚ),(0:ℚ))] : List Point).head? ∧
      r.getLast? = ([((0:ℚ),(0:ℚ)), ((1:ℚ),(1:ℚ)), ((2:ℚ),(0:ℚ))] : List Point).getLast? :=
  ⟨le_refl 0, by simp,
    C1_endpoint_preservation [((0:ℚ),(0:ℚ)), ((1:ℚ),(1:ℚ)), ((2:ℚ),(0:ℚ))] 0
      (le_refl 0) (by simp)⟩

/-- C2: every ring emitted by `merge_ways_from_ids` is closed
(`ring[0] == ring[-1]`) and has at least 4 points; shorter stitched chains are
discarded, never emitted. -/
theorem C2_ring_closure (way_ids : List ℕ) (ways : List (ℕ × List Point))
    (r : List Point) (h : r ∈ merge_ways_from_ids way_ids ways) :
    r.head? = r.getLast? ∧ 4 ≤ r.length := by
  have hm := outerLoop_mem (segmentsOf way_ids ways).length (segmentsOf way_ids ways) r h
  exact ⟨hm.2, hm.1⟩

theorem C2_witness :
    ([((0:ℚ),(0:ℚ)), ((1:ℚ),(0:ℚ)), ((0:ℚ),(1:ℚ)), ((0:ℚ),(0:ℚ))] : List Point) ∈
      merge_ways_from_ids [7]
        [(7, [((0:ℚ),(0:ℚ)), ((1:ℚ),(0:ℚ)), ((0:ℚ),(1:ℚ)), ((0:ℚ),(0:ℚ))])] ∧
    ([((0:ℚ),(0:ℚ)), ((1:ℚ),(0:ℚ)), ((0:ℚ),(1:ℚ)), ((0:ℚ),(0:ℚ))] : List Point).head? =
      ([((0:ℚ),(0:ℚ)), ((1:ℚ),(0:ℚ)), ((0:ℚ),(1:ℚ)), ((0:ℚ),(0:ℚ))] : List Point).getLast? ∧
    4 ≤ ([((0:ℚ),(0:ℚ)), ((1:ℚ),(0:ℚ)), ((0:ℚ),(1:ℚ)), ((0:ℚ),(0:ℚ))] : List Point).length := by
  have hmem : ([((0:ℚ),(0:ℚ)), ((1:ℚ),(0:ℚ)), ((0:ℚ),(1:ℚ)), ((0:ℚ),(0:ℚ))] : List Point) ∈
      merge_ways_from_ids [7]
        [(7, [((0:ℚ),(0:ℚ)), ((1:ℚ),(0:ℚ)), ((0:ℚ),(1:ℚ)), ((0:ℚ),(0:ℚ))])] := by
    decide
  have hc := C2_ring_closure [7]
    [(7, [((0:ℚ),(0:ℚ)), ((1:ℚ),(0:ℚ)), ((0:ℚ),(1:ℚ)), ((0:ℚ),(0:ℚ))])] _ hmem
  exact ⟨hmem, hc.1, hc.2⟩

/-- C3 (counterexample): the claim fails as stated over *every* tolerance: at
tolerance `-1` on a mapping holding a degenerate 3-point way, the single-way
simplification diverges, so `simplify_ways` returns no mapping at all. -/
theorem C3_counterexample :
    simplify_ways [(1, [((0:ℚ),(0:ℚ)), ((0:ℚ),(0:ℚ)), ((0:ℚ),(0:ℚ))])] (-1) = none := by
  norm_num [simplify_ways, simplifyWay, douglas_peucker, dpF, maxScan, scanMax,
    interiorPts, perpendicular_distance_sq, pt0, List.mapM, List.mapM.loop]

/-- C3 (amended): for every nonnegative tolerance, `simplify_ways` returns a
mapping with the same keys in the same order, and the value stored under any
key `S` is exactly the once-computed simplification of `S`'s raw sequence —
determined by `S`, the shared mapping and the tolerance alone, independent of
which districts reference `S`; stitching reads segment geometry only through
that shared lookup. -/
theorem C3_shared_edge (ways : List (ℕ × List Point)) (t : ℚ) (ht : 0 ≤ t) :
    ∃ m, simplify_ways ways t = some m ∧
      m.map Prod.fst = ways.map Prod.fst ∧
      (∀ (S : ℕ) (cs : List Point), ways.lookup S = some cs →
        m.lookup S = simplifyWay cs t) ∧
      ∀ way_ids : List ℕ, segmentsOf way_ids m = way_ids.filterMap fun wid =>
        match m.lookup wid with
        | some coords => if coords = [] then none else some coords
        | none => none := by
  obtain ⟨m, hm, hf⟩ := simplify_ways_spec ways t ht
  exact ⟨m, hm, forall2_fst_eq (fun a b hab => hab.1) ways m hf,
    forall2_lookup t ways m hf, fun way_ids => rfl⟩

theorem C3_witness :
    ∃ m, simplify_ways [(5, [((0:ℚ),(0:ℚ)), ((1:ℚ),(1:ℚ))])] 0 = some m ∧
      m.map Prod.fst =
        ([(5, [((0:ℚ),(0:ℚ)), ((1:ℚ),(1:ℚ))])] : List (ℕ × List Point)).map Prod.fst ∧
      (∀ (S : ℕ) (cs : List Point),
        ([(5, [((0:ℚ),(0:ℚ)), ((1:ℚ),(1:ℚ))])] : List (ℕ × List Point)).lookup S =
          some cs → m.lookup S = simplifyWay cs 0) ∧
      ∀ way_ids : List ℕ, segmentsOf way_ids m = way_ids.filterMap fun wid =>
        match m.lookup wid with
        | some coords => if coords = [] then none else some coords
        | none => none :=
  C3_shared_edge [(5, [((0:ℚ),(0:ℚ)), ((1:ℚ),(1:ℚ))])] 0 (le_refl 0)

/-- C4: simplification is idempotent: composing `douglas_peucker` with itself
at the same tolerance (divergence propagating through `bind`) gives the same
result as a single run — every returned sequence is a fixed point. -/
theorem C4_idempotent (c : List Point) (t : ℚ) :
    (douglas_peucker c t).bind (fun r => douglas_peucker r t) = douglas_peucker c t := by
  rcases hr : douglas_peucker c t with _ | r
  · rfl
  · exact douglas_peucker_fix c.length c (le_refl _) t r hr

/-- C5 (counterexample): a way member whose `"role"` key is absent
(`member.get("role")` is `None`) resolves in `ways` yet is *not* collected:
the source compares `None` against `("outer", "")` and drops it, while the
claim says an unspecified role is treated as outer. -/
theorem C5_counterexample :
    outer_members [⟨"way", none, 1⟩] [(1, [pt0])] = [] ∧
    (⟨"way", none, 1⟩ : Member).mtype = "way" ∧
    (⟨"way", none, 1⟩ : Member).role = none ∧
    (([(1, [pt0])] : List (ℕ × List Point)).lookup
      (⟨"way", none, 1⟩ : Member).ref).isSome := by
  refine ⟨?_, rfl, rfl, ?_⟩ <;> decide

/-- C5 (amended): a member is collected into the ordered boundary list if and
only if its type is `"way"`, its role key is present and equal to `"outer"`
or the empty string, and its way id resolves in the lookup; members with any
other role — including an absent role key — are excluded. -/
theorem C5_member_filter (members : List Member) (ways : List (ℕ × List Point)) :
    outer_members members ways = (members.filter fun m =>
      decide (m.mtype = "way" ∧ (m.role = some ("outer") ∨ m.role = some ("")) ∧
        (ways.lookup m.ref).isSome)).map Member.ref :=
  outer_members_filter members ways

/-- C6 (counterexample): a way whose raw coordinate list is empty (all node
ids unresolvable) passes through `simplify_ways` unchanged, so the returned
mapping holds a value with 0 points, contradicting the claim that every value
has at least 2. -/
theorem C6_counterexample :
    simplify_ways [(5, ([] : List Point))] 0 = some [(5, ([] : List Point))] ∧
    ¬ 2 ≤ ([] : List Point).length := by
  constructor
  · decide
  · simp

/-- C6 (amended): for every nonnegative tolerance, `simplify_ways` returns;
every way whose raw sequence has at least 2 points keeps at least 2 points,
and every way with at most 2 points passes through unchanged (so only
degenerate inputs — empty or single-point ways — yield short values). -/
theorem C6_min_two_points (ways : List (ℕ × List Point)) (t : ℚ) (ht : 0 ≤ t) :
    ∃ m, simplify_ways ways t = some m ∧
      List.Forall₂ (fun kv kv2 => kv2.1 = kv.1 ∧
        (2 ≤ kv.2.length → 2 ≤ kv2.2.length) ∧
        (kv.2.length ≤ 2 → kv2.2 = kv.2)) ways m := by
  obtain ⟨m, hm, hf⟩ := simplify_ways_spec ways t ht
  refine ⟨m, hm, hf.imp ?_⟩
  intro a b hab
  obtain ⟨h1, h2⟩ := hab
  refine ⟨h1, fun hl => simplifyWay_len2 _ _ _ h2 hl, fun hs => ?_⟩
  rw [simplifyWay_small _ _ hs] at h2
  simpa using h2.symm

theorem C6_witness :
    ∃ m, simplify_ways [(2, [((0:ℚ),(0:ℚ))])] 1 = some m ∧
      List.Forall₂ (fun kv kv2 => kv2.1 = kv.1 ∧
        (2 ≤ kv.2.length → 2 ≤ kv2.2.length) ∧
        (kv.2.length ≤ 2 → kv2.2 = kv.2))
        ([(2, [((0:ℚ),(0:ℚ))])] : List (ℕ × List Point)) m :=
  C6_min_two_points [(2, [((0:ℚ),(0:ℚ))])] 1 (by norm_num)

/-- C7: whenever `douglas_peucker` returns, its output is a subsequence of the
input (same points, same relative order), so its length never exceeds the
input's. -/
theorem C7_subsequence (c : List Point) (t : ℚ) (r : List Point)
    (h : douglas_peucker c t = some r) :
    List.Sublist r c ∧ r.length ≤ c.length := by
  have hs := dpF_sublist c.length c t r h
  exact ⟨hs, hs.length_le⟩

theorem C7_witness :
    List.Sublist ([((0:ℚ),(0:ℚ)), ((2:ℚ),(0:ℚ))] : List Point)
      [((0:ℚ),(0:ℚ)), ((1:ℚ),(0:ℚ)), ((2:ℚ),(0:ℚ))] ∧
    ([((0:ℚ),(0:ℚ)), ((2:ℚ),(0:ℚ))] : List Point).length ≤
      ([((0:ℚ),(0:ℚ)), ((1:ℚ),(0:ℚ)), ((2:ℚ),(0:ℚ))] : List Point).length :=
  C7_subsequence [((0:ℚ),(0:ℚ)), ((1:ℚ),(0:ℚ)), ((2:ℚ),(0:ℚ))] 1
    [((0:ℚ),(0:ℚ)), ((2:ℚ),(0:ℚ))]
    (by norm_num [douglas_peucker, dpF, maxScan, scanMax, interiorPts,
      perpendicular_distance_sq, pt0])

/-- C8: stitching the four unit-square segments for a single area yields
exactly one ring, the closed square
`[(0,0), (1,0), (1,1), (0,1), (0,0)]` (hence in particular a ring cyclically
equivalent to it). -/
theorem C8_square_scenario :
    merge_ways_from_ids [1, 2, 3, 4]
      [(1, [((0:ℚ),(0:ℚ)), ((1:ℚ),(0:ℚ))]), (2, [((1:ℚ),(0:ℚ)), ((1:ℚ),(1:ℚ))]),
        (3, [((1:ℚ),(1:ℚ)), ((0:ℚ),(1:ℚ))]), (4, [((0:ℚ),(1:ℚ)), ((0:ℚ),(0:ℚ))])] =
      [[((0:ℚ),(0:ℚ)), ((1:ℚ),(0:ℚ)), ((1:ℚ),(1:ℚ)), ((0:ℚ),(1:ℚ)), ((0:ℚ),(0:ℚ))]] ∧
    ([((0:ℚ),(0:ℚ)), ((1:ℚ),(0:ℚ)), ((1:ℚ),(1:ℚ)), ((0:ℚ),(1:ℚ)), ((0:ℚ),(0:ℚ))] :
      List Point).head? =
    ([((0:ℚ),(0:ℚ)), ((1:ℚ),(0:ℚ)), ((1:ℚ),(1:ℚ)), ((0:ℚ),(1:ℚ)), ((0:ℚ),(0:ℚ))] :
      List Point).getLast? := by
  constructor <;> decide

/-- C9: `perpendicular_distance` computes the point-to-segment distance
(distances modelled by their squares): in the degenerate case the distance to
`line_start`, otherwise the distance to the clamped projection
`lerp a b u`, `u ∈ [0, 1]`, which is nearest to the point among all segment
points `lerp a b v`, `v ∈ [0, 1]`. -/
theorem C9_point_segment_distance (p a b : Point) :
    (a = b → perpendicular_distance_sq p a b = sqDist p a) ∧
    (¬(a = b) → ∃ u, 0 ≤ u ∧ u ≤ 1 ∧
      perpendicular_distance_sq p a b = sqDist p (lerp a b u) ∧
      ∀ v, 0 ≤ v → v ≤ 1 →
        perpendicular_distance_sq p a b ≤ sqDist p (lerp a b v)) :=
  ⟨fun h => perpendicular_distance_sq_degenerate p a b h,
    fun h => perpendicular_distance_sq_min p a b h⟩

theorem C9_witness :
    perpendicular_distance_sq ((1:ℚ),(0:ℚ)) ((0:ℚ),(0:ℚ)) ((0:ℚ),(0:ℚ)) =
      sqDist ((1:ℚ),(0:ℚ)) ((0:ℚ),(0:ℚ)) ∧
    ∃ u, 0 ≤ u ∧ u ≤ 1 ∧
      perpendicular_distance_sq ((0:ℚ),(3:ℚ)) ((0:ℚ),(0:ℚ)) ((2:ℚ),(0:ℚ)) =
        sqDist ((0:ℚ),(3:ℚ)) (lerp ((0:ℚ),(0:ℚ)) ((2:ℚ),(0:ℚ)) u) ∧
      ∀ v, 0 ≤ v → v ≤ 1 →
        perpendicular_distance_sq ((0:ℚ),(3:ℚ)) ((0:ℚ),(0:ℚ)) ((2:ℚ),(0:ℚ)) ≤
          sqDist ((0:ℚ),(3:ℚ)) (lerp ((0:ℚ),(0:ℚ)) ((2:ℚ),(0:ℚ)) v) :=
  ⟨(C9_point_segment_distance ((1:ℚ),(0:ℚ)) ((0:ℚ),(0:ℚ)) ((0:ℚ),(0:ℚ))).1 rfl,
    (C9_point_segment_distance ((0:ℚ),(3:ℚ)) ((0:ℚ),(0:ℚ)) ((2:ℚ),(0:ℚ))).2
      (by decide)⟩

/-- C10: the stitcher terminates on every finite input: each successful
endpoint match removes exactly one sequence from the pool, so fuel equal to
the pool size is always enough — both loops are fuel-independent beyond it
and the function returns. -/
theorem C10_stitcher_terminates (current : List Point) (rem : List (List Point))
    (c2 : List Point) (rem2 : List (List Point)) (fuel : ℕ)
    (pool : List (List Point)) :
    (findMatch current rem = some (c2, rem2) → rem2.length + 1 = rem.length) ∧
    (rem.length ≤ fuel → innerLoop fuel current rem = innerLoop rem.length current rem) ∧
    (pool.length ≤ fuel → outerLoop fuel pool = outerLoop pool.length pool) :=
  ⟨findMatch_length current rem c2 rem2,
    innerLoop_fuel_irrel fuel current rem,
    fun h => outerLoop_fuel_irrel fuel pool.length pool h (le_refl _)⟩

theorem C10_witness :
    ([] : List (List Point)).length + 1 =
      ([[((1:ℚ),(0:ℚ)), ((2:ℚ),(0:ℚ))]] : List (List Point)).length ∧
    innerLoop 2 [((0:ℚ),(0:ℚ)), ((1:ℚ),(0:ℚ))] [[((1:ℚ),(0:ℚ)), ((2:ℚ),(0:ℚ))]] =
      innerLoop 1 [((0:ℚ),(0:ℚ)), ((1:ℚ),(0:ℚ))] [[((1:ℚ),(0:ℚ)), ((2:ℚ),(0:ℚ))]] ∧
    outerLoop 2 [[((0:ℚ),(0:ℚ))]] = outerLoop 1 [[((0:ℚ),(0:ℚ))]] := by
  obtain ⟨h1, h2, h3⟩ := C10_stitcher_terminates
    [((0:ℚ),(0:ℚ)), ((1:ℚ),(0:ℚ))] [[((1:ℚ),(0:ℚ)), ((2:ℚ),(0:ℚ))]]
    [((0:ℚ),(0:ℚ)), ((1:ℚ),(0:ℚ)), ((2:ℚ),(0:ℚ))] [] 2 [[((0:ℚ),(0:ℚ))]]
  exact ⟨h1 (by decide), h2 (by decide), h3 (by decide)⟩
